import Mathlib

/-!
Verification of the poker hand evaluator, game-state transition system and
MCTS decision engine of the repository (files `10_poker_AI_GPT.py` and
`6_poker_holdem_final.py`).

The Python classes are shallowly embedded:
* `Card` is a pair of rank and suit strings; `Card.ranks` / `Card.suits`
  are the literal lists of the source.
* `Deck` is a `List Card`; `Deck.draw_card` pops from the end of the list
  (`list.pop()`), returning `none` where the source raises `IndexError`.
* `PokerHand.evaluate_hand` becomes `evaluate_hand : List Card →
  Option (String × String)` returning the category string together with
  the rank of the first card of the descending-sorted hand
  (`self.cards[0].rank` of `6_poker_holdem_final.py`;
  `10_poker_AI_GPT.py` returns the category component alone).  The result
  is `none` exactly when the input is empty, where the source raises
  `ValueError` from `min()` over an empty sequence.  (The source also
  raises when a card carries a rank string outside `Card.ranks` —
  `list.index` fails — so theorems that depend on rank values restrict
  attention to cards whose rank is a member of `Card.ranks`; on that
  domain `List.indexOf` agrees with Python's `list.index`.)
* `PokerGameState.legal_moves` draws fresh community cards from freshly
  shuffled decks; the randomly drawn cards are abstracted as an oracle
  `fresh : Nat → Card` supplying the cards in order.
* The MCTS search tree is a rose tree `MTree`; one iteration of the
  selection/expansion/simulation/backpropagation loop of
  `MCTS.choose_move` is `mctsIterate`, with the random expansion choice
  and the random rollout outcome abstracted as oracles.
-/

/-- A playing card: a rank string and a suit string, as in class `Card`. -/
structure Card where
  rank : String
  suit : String
deriving DecidableEq, Repr

namespace Card

/-- `Card.ranks = ["2", ..., "A"]` from the source. -/
def ranks : List String :=
  ["2", "3", "4", "5", "6", "7", "8", "9", "10", "J", "Q", "K", "A"]

/-- `Card.suits` from the source. -/
def suits : List String := ["Clubs", "Diamonds", "Hearts", "Spades"]

end Card

/-- `Card.ranks.index(card.rank)`: position of a card's rank in the rank
list (0 for "2" up to 12 for "A").  Python raises for a rank that is not
in the list; `List.indexOf` returns 13 there, so theorems about rank
values restrict to cards with `c.rank ∈ Card.ranks`. -/
def rankIndex (c : Card) : Nat := Card.ranks.indexOf c.rank

namespace Deck

/-- The 52-card deck built by `Deck.__init__`:
`[Card(rank, suit) for rank in Card.ranks for suit in Card.suits]`
(before the shuffle; the shuffle is an arbitrary permutation, so theorems
quantify over any permutation of this list). -/
def allCards : List Card :=
  Card.ranks.flatMap (fun r => Card.suits.map (fun s => { rank := r, suit := s }))

/-- `Deck.draw_card`: `self.cards.pop()` removes and returns the last
card.  `none` where the source raises `IndexError` on an empty deck. -/
def draw_card (cards : List Card) : Option (Card × List Card) :=
  match cards.getLast? with
  | none => none
  | some c => some (c, cards.dropLast)

/-- Draw `n` cards in sequence, returning them in draw order together
with the remaining deck; `none` as soon as one draw fails. -/
def drawN : Nat → List Card → Option (List Card × List Card)
  | 0, d => some ([], d)
  | n + 1, d =>
    (draw_card d).bind (fun cd =>
      (drawN n cd.2).map (fun rest => (cd.1 :: rest.1, rest.2)))

end Deck

lemma Deck.draw_card_concat (l : List Card) (c : Card) :
    Deck.draw_card (l ++ [c]) = some (c, l) := by
  simp [Deck.draw_card, List.getLast?_concat]

lemma Deck.drawN_succ (n : Nat) (d : List Card) :
    Deck.drawN (n + 1) d =
      (Deck.draw_card d).bind (fun cd =>
        (Deck.drawN n cd.2).map (fun rest => (cd.1 :: rest.1, rest.2))) := rfl

/-- Drawing exactly `d.length` cards from deck `d` succeeds, yields the
deck in reverse order and empties it; one further draw fails. -/
lemma Deck.drawN_length (d : List Card) :
    Deck.drawN d.length d = some (d.reverse, []) ∧
    Deck.drawN (d.length + 1) d = none := by
  induction d using List.reverseRecOn with
  | nil => constructor <;> simp [Deck.drawN, Deck.draw_card]
  | append_singleton xs x ih =>
    have hlen : (xs ++ [x]).length = xs.length + 1 := by simp
    constructor
    · rw [hlen]
      simp [Deck.drawN, Deck.draw_card_concat, ih.1]
    · rw [hlen, Deck.drawN_succ, Deck.draw_card_concat]
      simp only [Option.some_bind, ih.2, Option.map_none']

lemma Deck.allCards_length : Deck.allCards.length = 52 := by decide

lemma Deck.allCards_nodup : Deck.allCards.Nodup := by decide

/-- **C7.** Drawing 52 times from a freshly constructed deck — any
permutation `d` of the 52 rank×suit combinations — succeeds, yields 52
pairwise-distinct cards covering every rank×suit combination exactly
once, and leaves the deck empty so that the 53rd draw fails (the source
raises `IndexError` from `pop()` on the empty list; the model's
`drawN 53 d = none`). -/
theorem claim_C7 (d : List Card) (hd : d.Perm Deck.allCards) :
    Deck.drawN 52 d = some (d.reverse, []) ∧
    d.reverse.Nodup ∧
    (∀ r ∈ Card.ranks, ∀ s ∈ Card.suits, d.reverse.count ⟨r, s⟩ = 1) ∧
    Deck.drawN 53 d = none := by
  have hlen : d.length = 52 := by
    simpa [Deck.allCards_length] using hd.length_eq
  have hperm : d.reverse.Perm Deck.allCards := d.reverse_perm.trans hd
  have hbase : ∀ r ∈ Card.ranks, ∀ s ∈ Card.suits,
      Deck.allCards.count (Card.mk r s) = 1 := by decide
  refine ⟨?_, ?_, ?_, ?_⟩
  · simpa [hlen] using (Deck.drawN_length d).1
  · exact hperm.nodup_iff.mpr Deck.allCards_nodup
  · intro r hr s hs
    rw [hperm.count_eq]
    exact hbase r hr s hs
  · have h53 : (53 : Nat) = d.length + 1 := by omega
    rw [h53]
    exact (Deck.drawN_length d).2

/-- Witness for C7 at the concrete unshuffled deck. -/
theorem claim_C7_witness :
    Deck.drawN 52 Deck.allCards = some (Deck.allCards.reverse, []) ∧
    Deck.allCards.reverse.Nodup ∧
    (∀ r ∈ Card.ranks, ∀ s ∈ Card.suits,
      Deck.allCards.reverse.count ⟨r, s⟩ = 1) ∧
    Deck.drawN 53 Deck.allCards = none :=
  claim_C7 Deck.allCards (List.Perm.refl _)

/-! ## The hand evaluator (`class PokerHand`) -/

/-- `sorted(cards, key=lambda card: Card.ranks.index(card.rank),
reverse=True)` from `PokerHand.__init__`: the hand sorted by descending
rank index (`self.cards`). -/
def sortDesc (cards : List Card) : List Card :=
  List.insertionSort (fun a b => rankIndex b ≤ rankIndex a) cards

instance : IsTotal Card (fun a b => rankIndex b ≤ rankIndex a) :=
  ⟨fun a b => Nat.le_total (rankIndex b) (rankIndex a)⟩

instance : IsTrans Card (fun a b => rankIndex b ≤ rankIndex a) :=
  ⟨fun _ _ _ hab hbc => le_trans hbc hab⟩

/-- `sorted(Card.ranks.index(card.rank) for card in self.cards)` from
`PokerHand.is_straight`: the ascending list of rank indices. -/
def sortedIndices (cards : List Card) : List Nat :=
  List.insertionSort (· ≤ ·) (cards.map rankIndex)

/-- `PokerHand.is_straight`: the sorted rank indices form a run of five
consecutive values starting at their minimum (the head of the sorted
list), or are the ace-low wheel `[0, 1, 2, 3, 12]`.  On an empty hand the
source raises (`min` of an empty sequence); that case is cut off before
the predicates run, see `evaluate_hand`. -/
def is_straight (cards : List Card) : Bool :=
  let indices := sortedIndices cards
  match indices.head? with
  | none => false
  | some m => (indices == List.range' m 5) || (indices == [0, 1, 2, 3, 12])

/-- `PokerHand.is_flush`: `len(set(card.suit for card in self.cards)) == 1`. -/
def is_flush (cards : List Card) : Bool :=
  (cards.map (·.suit)).dedup.length == 1

/-- Multiplicity of rank string `r` in the hand
(`Counter(card.rank for card in self.cards)[r]`). -/
def countRank (cards : List Card) (r : String) : Nat :=
  (cards.map (·.rank)).count r

/-- `PokerHand.is_four_of_a_kind`: `4 in Counter(...).values()`, i.e.
some rank occurring in the hand has multiplicity 4. -/
def is_four_of_a_kind (cards : List Card) : Bool :=
  cards.any (fun c => countRank cards c.rank == 4)

/-- `PokerHand.is_three_of_a_kind`: some rank has multiplicity 3. -/
def is_three_of_a_kind (cards : List Card) : Bool :=
  cards.any (fun c => countRank cards c.rank == 3)

/-- `PokerHand.is_one_pair`: some rank has multiplicity 2. -/
def is_one_pair (cards : List Card) : Bool :=
  cards.any (fun c => countRank cards c.rank == 2)

/-- `PokerHand.is_full_house`: `3 in ranks.values() and 2 in
ranks.values()`. -/
def is_full_house (cards : List Card) : Bool :=
  (cards.any (fun c => countRank cards c.rank == 3)) &&
    (cards.any (fun c => countRank cards c.rank == 2))

/-- `PokerHand.is_two_pair`: `list(Counter(ranks).values()).count(2) ==
2`, i.e. exactly two distinct ranks have multiplicity 2. -/
def is_two_pair (cards : List Card) : Bool :=
  ((cards.map (·.rank)).dedup.filter (fun r => countRank cards r == 2)).length == 2

/-- `PokerHand.is_straight_flush`. -/
def is_straight_flush (cards : List Card) : Bool :=
  is_straight cards && is_flush cards

/-- The category cascade of `PokerHand.evaluate_hand`, applied to
`self.cards` (the descending-sorted hand); first match wins. -/
def hand_category (self_cards : List Card) : String :=
  if is_straight_flush self_cards then "Straight Flush"
  else if is_four_of_a_kind self_cards then "Four of a Kind"
  else if is_full_house self_cards then "Full House"
  else if is_flush self_cards then "Flush"
  else if is_straight self_cards then "Straight"
  else if is_three_of_a_kind self_cards then "Three of a Kind"
  else if is_two_pair self_cards then "Two Pair"
  else if is_one_pair self_cards then "One Pair"
  else "High Card"

/-- `PokerHand(cards).rank` in the shape of `6_poker_holdem_final.py`:
the category string paired with `self.cards[0].rank`, the rank of the
top card of the descending-sorted hand (`10_poker_AI_GPT.py` returns the
category component alone).  `none` exactly where the source raises: on
the empty hand (`min`/`self.cards[0]` of an empty sequence). -/
def evaluate_hand (cards : List Card) : Option (String × String) :=
  match sortDesc cards with
  | [] => none
  | top :: rest => some (hand_category (top :: rest), top.rank)

/-! ### Permutation invariance of the classifier -/

lemma sortDesc_perm (cards : List Card) : (sortDesc cards).Perm cards :=
  List.perm_insertionSort _ cards

lemma sortedIndices_eq_of_perm {l l2 : List Card} (h : l.Perm l2) :
    sortedIndices l = sortedIndices l2 := by
  have hs1 : (sortedIndices l).Sorted (· ≤ ·) := List.sorted_insertionSort _ _
  have hs2 : (sortedIndices l2).Sorted (· ≤ ·) := List.sorted_insertionSort _ _
  have hp : (sortedIndices l).Perm (sortedIndices l2) :=
    (List.perm_insertionSort _ _).trans
      ((h.map rankIndex).trans (List.perm_insertionSort _ _).symm)
  exact List.eq_of_perm_of_sorted hp hs1 hs2

lemma is_straight_eq_of_perm {l l2 : List Card} (h : l.Perm l2) :
    is_straight l = is_straight l2 := by
  simp [is_straight, sortedIndices_eq_of_perm h]

lemma is_flush_eq_of_perm {l l2 : List Card} (h : l.Perm l2) :
    is_flush l = is_flush l2 := by
  simp [is_flush, ((h.map (·.suit)).dedup).length_eq]

lemma countRank_eq_of_perm {l l2 : List Card} (h : l.Perm l2) (r : String) :
    countRank l r = countRank l2 r := by
  simp only [countRank]
  exact (h.map (fun c => c.rank)).count_eq r

lemma any_countRank_eq_of_perm {l l2 : List Card} (h : l.Perm l2) (n : Nat) :
    (l.any (fun c => countRank l c.rank == n))
      = (l2.any (fun c => countRank l2 c.rank == n)) := by
  rw [Bool.eq_iff_iff]
  simp only [List.any_eq_true, beq_iff_eq]
  constructor
  · rintro ⟨c, hc, he⟩
    exact ⟨c, h.subset hc, by rw [← countRank_eq_of_perm h]; exact he⟩
  · rintro ⟨c, hc, he⟩
    exact ⟨c, h.symm.subset hc, by rw [countRank_eq_of_perm h]; exact he⟩

lemma is_two_pair_eq_of_perm {l l2 : List Card} (h : l.Perm l2) :
    is_two_pair l = is_two_pair l2 := by
  have hfun : (fun r => countRank l r == 2) = (fun r => countRank l2 r == 2) :=
    funext fun r => by rw [countRank_eq_of_perm h]
  have hp : ((l.map (·.rank)).dedup.filter (fun r => countRank l r == 2)).Perm
      ((l2.map (·.rank)).dedup.filter (fun r => countRank l2 r == 2)) := by
    rw [hfun]
    exact ((h.map (·.rank)).dedup).filter _
  simp [is_two_pair, hp.length_eq]

lemma hand_category_eq_of_perm {l l2 : List Card} (h : l.Perm l2) :
    hand_category l = hand_category l2 := by
  simp only [hand_category, is_straight_flush, is_four_of_a_kind,
    is_full_house, is_three_of_a_kind, is_one_pair,
    is_straight_eq_of_perm h, is_flush_eq_of_perm h,
    any_countRank_eq_of_perm h, is_two_pair_eq_of_perm h]

lemma evaluate_hand_fst_eq_of_perm {l l2 : List Card} (h : l.Perm l2) :
    (evaluate_hand l).map Prod.fst = (evaluate_hand l2).map Prod.fst := by
  have hsd : (sortDesc l).Perm (sortDesc l2) :=
    (sortDesc_perm l).trans (h.trans (sortDesc_perm l2).symm)
  unfold evaluate_hand
  cases hl : sortDesc l with
  | nil =>
    have : sortDesc l2 = [] := ((hl ▸ hsd).symm).eq_nil
    simp [this]
  | cons top rest =>
    cases hl2 : sortDesc l2 with
    | nil =>
      have : sortDesc l = [] := (hl2 ▸ hsd).eq_nil
      rw [this] at hl; cases hl
    | cons top2 rest2 =>
      have hc : hand_category (top :: rest) = hand_category (top2 :: rest2) :=
        hand_category_eq_of_perm (hl ▸ hl2 ▸ hsd)
      simp [hc]

/-- **C8.** For every valid hand input (5 to 7 cards with ranks drawn
from `Card.ranks`) and every permutation of that input, `evaluate_hand`
assigns the permuted input the same category as the original input.
(The proof factors through `evaluate_hand_fst_eq_of_perm`, which needs
no size or validity restriction: every predicate of the cascade depends
only on the multiset of cards.) -/
theorem claim_C8 (l l2 : List Card) (h5 : 5 ≤ l.length) (h7 : l.length ≤ 7)
    (hvalid : ∀ c ∈ l, c.rank ∈ Card.ranks) (hperm : l.Perm l2) :
    (evaluate_hand l).map Prod.fst = (evaluate_hand l2).map Prod.fst :=
  evaluate_hand_fst_eq_of_perm hperm

/-- Witness for C8: a concrete 5-card hand and a rearrangement of it. -/
theorem claim_C8_witness :
    (evaluate_hand [⟨"K", "Clubs"⟩, ⟨"K", "Hearts"⟩, ⟨"4", "Diamonds"⟩,
        ⟨"9", "Spades"⟩, ⟨"2", "Clubs"⟩]).map Prod.fst
      = (evaluate_hand [⟨"2", "Clubs"⟩, ⟨"9", "Spades"⟩, ⟨"K", "Hearts"⟩,
        ⟨"K", "Clubs"⟩, ⟨"4", "Diamonds"⟩]).map Prod.fst :=
  claim_C8 _ _ (by decide) (by decide) (by decide) (by decide)

/-- **C6 counterexample.** The evaluator does not reject out-of-range
hand sizes: a 4-card input and an 8-card input both *succeed* and return
a category (here a flush), where the claim demands failure with
`InvalidHandSize`.  `PokerHand.__init__` performs no size validation. -/
theorem claim_C6_counterexample :
    evaluate_hand [⟨"2", "Clubs"⟩, ⟨"3", "Clubs"⟩, ⟨"4", "Clubs"⟩,
        ⟨"5", "Clubs"⟩] = some ("Flush", "5") ∧
    evaluate_hand [⟨"2", "Clubs"⟩, ⟨"3", "Clubs"⟩, ⟨"4", "Clubs"⟩,
        ⟨"5", "Clubs"⟩, ⟨"6", "Clubs"⟩, ⟨"7", "Clubs"⟩, ⟨"8", "Clubs"⟩,
        ⟨"9", "Clubs"⟩] = some ("Flush", "9") := by
  constructor <;> decide

/-- **C6 amended.** The evaluator performs no input-size validation and
never fails with `InvalidHandSize`: the empty input fails (the source
raises `ValueError` from `min()` on an empty sequence), and every
nonempty input of cards with valid ranks — of any size, including fewer
than 5 or more than 7 cards — returns an evaluation result; in
particular every 5-to-7-card input succeeds. -/
lemma evaluate_hand_ne_none {cards : List Card} (hne : cards ≠ []) :
    ∃ r, evaluate_hand cards = some r := by
  unfold evaluate_hand
  cases hsd : sortDesc cards with
  | nil =>
    have h0 : (sortDesc cards).Perm cards := sortDesc_perm cards
    rw [hsd] at h0
    exact absurd h0.symm.eq_nil hne
  | cons a t => exact ⟨_, rfl⟩

theorem claim_C6_amended :
    evaluate_hand ([] : List Card) = none ∧
    ∀ cards : List Card, cards ≠ [] →
      (∀ c ∈ cards, c.rank ∈ Card.ranks) →
      (evaluate_hand cards).isSome = true := by
  constructor
  · rfl
  · intro cards hne _
    obtain ⟨r, hr⟩ := evaluate_hand_ne_none hne
    simp [hr]

/-- Witness for the amended C6 at a concrete 6-card input. -/
theorem claim_C6_amended_witness :
    (evaluate_hand [⟨"2", "Hearts"⟩, ⟨"7", "Clubs"⟩, ⟨"7", "Spades"⟩,
        ⟨"J", "Diamonds"⟩, ⟨"A", "Clubs"⟩, ⟨"3", "Hearts"⟩]).isSome = true :=
  claim_C6_amended.2 _ (by decide) (by decide)

/-! ### Facts about straights, flushes and duplicate-free ranks -/

lemma dedup_eq_singleton {α : Type} [DecidableEq α] {l : List α} {a : α}
    (hne : l ≠ []) (hall : ∀ x ∈ l, x = a) : l.dedup = [a] := by
  induction l with
  | nil => exact absurd rfl hne
  | cons x xs ih =>
    have hx : x = a := hall x (List.mem_cons_self x xs)
    cases xs with
    | nil => subst hx; simp
    | cons y ys =>
      have hy : y = a := hall y (by simp)
      have hmem : x ∈ y :: ys := by
        rw [hx, ← hy]
        exact List.mem_cons_self y ys
      rw [List.dedup_cons_of_mem hmem]
      exact ih (by simp) (fun z hz => hall z (List.mem_cons_of_mem x hz))

lemma dedup_length_ne_one {α : Type} [DecidableEq α] {l : List α} {a b : α}
    (ha : a ∈ l) (hb : b ∈ l) (hab : a ≠ b) : l.dedup.length ≠ 1 := by
  intro h1
  obtain ⟨x, hx⟩ := List.length_eq_one.mp h1
  have ha2 : a ∈ l.dedup := List.mem_dedup.mpr ha
  have hb2 : b ∈ l.dedup := List.mem_dedup.mpr hb
  rw [hx] at ha2 hb2
  simp only [List.mem_singleton] at ha2 hb2
  exact hab (ha2.trans hb2.symm)

lemma map_rankIndex_eq (l : List Card) :
    l.map rankIndex = (l.map (·.rank)).map (fun r => Card.ranks.indexOf r) := by
  rw [List.map_map]
  rfl

lemma nodup_rank_of_nodup_rankIndex {l : List Card}
    (h : (l.map rankIndex).Nodup) : (l.map (·.rank)).Nodup := by
  rw [map_rankIndex_eq] at h
  exact h.of_map _

lemma countRank_eq_one_of_nodup {cards : List Card}
    (hnd : (cards.map (·.rank)).Nodup) {c : Card} (hc : c ∈ cards) :
    countRank cards c.rank = 1 :=
  List.count_eq_one_of_mem hnd (List.mem_map_of_mem _ hc)

lemma any_countRank_eq_false_of_nodup {cards : List Card}
    (hnd : (cards.map (·.rank)).Nodup) (n : Nat) (hn : n ≠ 1) :
    cards.any (fun c => countRank cards c.rank == n) = false := by
  rw [List.any_eq_false]
  intro c hc
  rw [countRank_eq_one_of_nodup hnd hc]
  simp only [beq_iff_eq]
  exact fun h => hn h.symm

/-- On a hand with pairwise-distinct ranks that is a straight, the
category cascade reduces to the flush test: four of a kind, full house
and the pair families are all impossible. -/
lemma hand_category_of_nodup_straight (cards : List Card)
    (hnd : (cards.map (·.rank)).Nodup) (hst : is_straight cards = true) :
    hand_category cards = if is_flush cards then "Straight Flush" else "Straight" := by
  have h4 : is_four_of_a_kind cards = false :=
    any_countRank_eq_false_of_nodup hnd 4 (by omega)
  have h3 : cards.any (fun c => countRank cards c.rank == 3) = false :=
    any_countRank_eq_false_of_nodup hnd 3 (by omega)
  have hfh : is_full_house cards = false := by
    unfold is_full_house
    rw [h3]
    rfl
  by_cases hf : is_flush cards
  · simp [hand_category, is_straight_flush, hst, hf]
  · simp [hand_category, is_straight_flush, hst, hf, h4, hfh]

lemma is_straight_of_sortedIndices_range {cards : List Card} {m : Nat}
    (hsort : sortedIndices cards = List.range' m 5) : is_straight cards = true := by
  have hr : List.range' m 5 = m :: List.range' (m + 1) 4 := rfl
  simp only [is_straight, hsort, hr, List.head?_cons]
  simp

lemma is_straight_of_sortedIndices_wheel {cards : List Card}
    (hsort : sortedIndices cards = [0, 1, 2, 3, 12]) : is_straight cards = true := by
  simp [is_straight, hsort]

lemma list_set_get_self {α : Type} (l : List α) (n : Nat) (h : n < l.length) :
    l.set n (l.get ⟨n, h⟩) = l := by
  induction l generalizing n with
  | nil => simp at h
  | cons x xs ih =>
    cases n with
    | zero => simp
    | succ k =>
      have hk : k < xs.length := by simpa using h
      have := ih k hk
      simp only [List.get_eq_getElem] at this ⊢
      simp [this]

lemma map_rank_set (l : List Card) (i : Nat) (hi : i < l.length) (s : String) :
    (l.set i { rank := (l.get ⟨i, hi⟩).rank, suit := s }).map (·.rank)
      = l.map (·.rank) := by
  induction l generalizing i with
  | nil => simp at hi
  | cons x xs ih =>
    cases i with
    | zero => simp
    | succ n =>
      have hn : n < xs.length := by simpa using hi
      show (x :: xs.set n { rank := (xs.get ⟨n, hn⟩).rank, suit := s }).map (·.rank)
          = (x :: xs).map (·.rank)
      simp only [List.map_cons, List.cons.injEq]
      exact ⟨trivial, ih n hn⟩

/-- Evaluating any nonempty hand with pairwise-distinct ranks that
satisfies `is_straight`: the category is decided by the flush test. -/
lemma evaluate_hand_of_straight (cards : List Card)
    (hne : cards ≠ [])
    (hnd : (cards.map (·.rank)).Nodup)
    (hst : is_straight cards = true) :
    (evaluate_hand cards).map Prod.fst =
      some (if is_flush cards then "Straight Flush" else "Straight") := by
  cases hsd : sortDesc cards with
  | nil =>
    have h0 : (sortDesc cards).Perm cards := sortDesc_perm cards
    rw [hsd] at h0
    exact absurd h0.symm.eq_nil hne
  | cons top rest =>
    have hperm2 : (top :: rest).Perm cards := by
      rw [← hsd]; exact sortDesc_perm cards
    have hnd2 : ((top :: rest).map (·.rank)).Nodup := ((hperm2.map _).nodup_iff).mpr hnd
    have hst2 : is_straight (top :: rest) = true := (is_straight_eq_of_perm hperm2).trans hst
    have hfl2 : is_flush (top :: rest) = is_flush cards := is_flush_eq_of_perm hperm2
    have hcat := hand_category_of_nodup_straight _ hnd2 hst2
    rw [hfl2] at hcat
    unfold evaluate_hand
    rw [hsd]
    simp [hcat]

/-- **C1.** Every 5-card hand whose sorted rank indices are five
consecutive values `m, ..., m+4` (with valid ranks, `m + 4 ≤ 12`) and
whose suits all equal `s0` evaluates to `("Straight Flush", r)` with `r`
the highest rank present (`Card.ranks.getD (m+4) ""`); and replacing the
suit of any single one of the five cards by a different suit `s2 ≠ s0`
(keeping its rank) makes the hand evaluate to category `"Straight"`,
not `"Straight Flush"`. -/
theorem claim_C1 (cards : List Card) (m : Nat) (s0 : String)
    (hm : m + 4 ≤ 12)
    (hsort : sortedIndices cards = List.range' m 5)
    (hsuit : ∀ c ∈ cards, c.suit = s0) :
    evaluate_hand cards = some ("Straight Flush", Card.ranks.getD (m + 4) "") ∧
    ∀ (i : Nat) (hi : i < cards.length) (s2 : String), s2 ≠ s0 →
      (evaluate_hand
          (cards.set i { rank := (cards.get ⟨i, hi⟩).rank, suit := s2 })).map Prod.fst
        = some "Straight" := by
  have hperm_idx : (cards.map rankIndex).Perm (List.range' m 5) := by
    have h : (sortedIndices cards).Perm (cards.map rankIndex) :=
      List.perm_insertionSort _ _
    rw [hsort] at h
    exact h.symm
  have hlen : cards.length = 5 := by simpa using hperm_idx.length_eq
  have hne : cards ≠ [] := by
    intro h0; rw [h0] at hlen; simp at hlen
  have hnd_idx : (cards.map rankIndex).Nodup :=
    hperm_idx.nodup_iff.mpr (List.nodup_range' m 5)
  have hnd_rank : (cards.map (·.rank)).Nodup := nodup_rank_of_nodup_rankIndex hnd_idx
  have hstr : is_straight cards = true := is_straight_of_sortedIndices_range hsort
  have hfl : is_flush cards = true := by
    unfold is_flush
    have hne2 : cards.map (·.suit) ≠ [] := by
      intro h0
      have := congrArg List.length h0
      simp [hlen] at this
    have hall : ∀ x ∈ cards.map (·.suit), x = s0 := by
      intro x hx
      obtain ⟨c, hc, rfl⟩ := List.mem_map.mp hx
      exact hsuit c hc
    rw [dedup_eq_singleton hne2 hall]
    rfl
  constructor
  · cases hsd : sortDesc cards with
    | nil =>
      have h0 : (sortDesc cards).Perm cards := sortDesc_perm cards
      rw [hsd] at h0
      exact absurd h0.symm.eq_nil hne
    | cons top rest =>
      have hperm2 : (top :: rest).Perm cards := by
        rw [← hsd]; exact sortDesc_perm cards
      have htop_mem : top ∈ cards := hperm2.subset (List.mem_cons_self _ _)
      have hub : ∀ c ∈ cards, rankIndex c ≤ m + 4 := by
        intro c hc
        have hmem : rankIndex c ∈ List.range' m 5 :=
          hperm_idx.subset (List.mem_map_of_mem _ hc)
        have := List.mem_range'_1.mp hmem
        omega
      have hsorted : (sortDesc cards).Sorted (fun a b => rankIndex b ≤ rankIndex a) :=
        List.sorted_insertionSort _ _
      rw [hsd] at hsorted
      have hrel : ∀ b ∈ rest, rankIndex b ≤ rankIndex top :=
        (List.sorted_cons.mp hsorted).1
      have htop_idx : rankIndex top = m + 4 := by
        have hex : ∃ c ∈ cards, rankIndex c = m + 4 := by
          have hmem : m + 4 ∈ cards.map rankIndex := by
            apply hperm_idx.symm.subset
            exact List.mem_range'_1.mpr ⟨by omega, by omega⟩
          obtain ⟨c, hc, he⟩ := List.mem_map.mp hmem
          exact ⟨c, hc, he⟩
        obtain ⟨cstar, hcs, hes⟩ := hex
        have hcs2 : cstar ∈ top :: rest := hperm2.mem_iff.mpr hcs
        rcases List.mem_cons.mp hcs2 with h | h
        · exact h ▸ hes
        · have h1 := hrel cstar h
          have h2 := hub top htop_mem
          omega
      have htop_rank : Card.ranks.getD (m + 4) "" = top.rank := by
        have hidx : Card.ranks.indexOf top.rank = m + 4 := htop_idx
        have hlt : Card.ranks.indexOf top.rank < Card.ranks.length := by
          have h13 : Card.ranks.length = 13 := rfl
          omega
        have hget := List.getElem_indexOf hlt
        have hlt2 : m + 4 < Card.ranks.length := by
          have h13 : Card.ranks.length = 13 := rfl
          omega
        rw [List.getD_eq_getElem Card.ranks "" hlt2]
        rw [← hget]
        congr 1
        omega
      have hnd2 : ((top :: rest).map (·.rank)).Nodup :=
        ((hperm2.map _).nodup_iff).mpr hnd_rank
      have hst2 : is_straight (top :: rest) = true :=
        (is_straight_eq_of_perm hperm2).trans hstr
      have hfl2 : is_flush (top :: rest) = true :=
        (is_flush_eq_of_perm hperm2).trans hfl
      have hcat := hand_category_of_nodup_straight _ hnd2 hst2
      rw [hfl2] at hcat
      simp only [if_pos] at hcat
      unfold evaluate_hand
      rw [hsd]
      show some (hand_category (top :: rest), top.rank) = _
      rw [hcat, ← htop_rank]
  · intro i hi s2 hs2
    set cnew : Card := { rank := (cards.get ⟨i, hi⟩).rank, suit := s2 } with hcnew
    set cards2 : List Card := cards.set i cnew with hcards2
    have hmr : cards2.map (·.rank) = cards.map (·.rank) := map_rank_set cards i hi s2
    have hmi : cards2.map rankIndex = cards.map rankIndex := by
      rw [map_rankIndex_eq, map_rankIndex_eq, hmr]
    have hsi : sortedIndices cards2 = List.range' m 5 := by
      unfold sortedIndices
      rw [hmi]
      exact hsort
    have hstr2 : is_straight cards2 = true := is_straight_of_sortedIndices_range hsi
    have hnd2 : (cards2.map (·.rank)).Nodup := by rw [hmr]; exact hnd_rank
    have hlen2 : cards2.length = cards.length := by
      rw [hcards2]; exact List.length_set cards i cnew
    have hflush2 : is_flush cards2 = false := by
      unfold is_flush
      have hs2mem : s2 ∈ cards2.map (·.suit) := by
        have h3 : i < cards2.length := by rw [hlen2]; exact hi
        have h4 := List.getElem_mem h3
        have h5 : cards2.get ⟨i, h3⟩ = cnew := by
          simp only [List.get_eq_getElem, hcards2]
          exact List.getElem_set_self (by simpa using hi)
        have h6 : cnew ∈ cards2 := by
          rw [← h5]
          simpa [List.get_eq_getElem] using h4
        exact List.mem_map_of_mem _ h6
      have hs0mem : s0 ∈ cards2.map (·.suit) := by
        have hj : ∃ j, j < cards.length ∧ j ≠ i := by
          rw [hlen]
          by_cases h : i = 0
          · exact ⟨1, by omega, by omega⟩
          · exact ⟨0, by omega, fun h0 => h h0.symm⟩
        obtain ⟨j, hj1, hj2⟩ := hj
        have hj3 : j < cards2.length := by rw [hlen2]; exact hj1
        have h5 : cards2.get ⟨j, hj3⟩ = cards.get ⟨j, hj1⟩ := by
          simp only [List.get_eq_getElem, hcards2]
          exact List.getElem_set_ne (fun h => hj2 h.symm) _
        have h6 : cards.get ⟨j, hj1⟩ ∈ cards := by
          simp only [List.get_eq_getElem]
          exact List.getElem_mem hj1
        have h7 : (cards2.get ⟨j, hj3⟩).suit = s0 := by
          rw [h5]; exact hsuit _ h6
        have h8 : cards2.get ⟨j, hj3⟩ ∈ cards2 := by
          simp only [List.get_eq_getElem]
          exact List.getElem_mem hj3
        rw [← h7]
        exact List.mem_map_of_mem _ h8
      rw [beq_eq_false_iff_ne]
      exact dedup_length_ne_one hs2mem hs0mem hs2
    have hne2 : cards2 ≠ [] := by
      intro h0
      have := congrArg List.length h0
      rw [hlen2, hlen] at this
      simp at this
    have h := evaluate_hand_of_straight cards2 hne2 hnd2 hstr2
    rw [hflush2] at h
    simpa using h

/-- Witness for C1: the royal straight flush in spades (hole cards A♠ K♠
with community Q♠ J♠ 10♠), whose top rank is the ace; and the same hand
with the ten turned into a heart, which is a plain straight. -/
theorem claim_C1_witness :
    evaluate_hand [⟨"A", "Spades"⟩, ⟨"K", "Spades"⟩, ⟨"Q", "Spades"⟩,
        ⟨"J", "Spades"⟩, ⟨"10", "Spades"⟩] = some ("Straight Flush", "A") ∧
    (evaluate_hand (([⟨"A", "Spades"⟩, ⟨"K", "Spades"⟩, ⟨"Q", "Spades"⟩,
        ⟨"J", "Spades"⟩, ⟨"10", "Spades"⟩] : List Card).set 4
        { rank := "10", suit := "Hearts" })).map Prod.fst = some "Straight" := by
  have h := claim_C1 [⟨"A", "Spades"⟩, ⟨"K", "Spades"⟩, ⟨"Q", "Spades"⟩,
      ⟨"J", "Spades"⟩, ⟨"10", "Spades"⟩] 8 "Spades" (by omega) (by decide)
      (by decide)
  refine ⟨by simpa using h.1, ?_⟩
  exact h.2 4 (by decide) "Hearts" (by decide)

/-- **C2.** Every 5-card hand whose rank multiset is exactly the wheel
{A,2,3,4,5} (sorted rank indices `[0,1,2,3,12]`), in any input order,
with suits not all equal, evaluates to category `"Straight"` — never
`"High Card"` and never `"Straight Flush"`. -/
theorem claim_C2 (cards : List Card)
    (hsort : sortedIndices cards = [0, 1, 2, 3, 12])
    (hsuits : ∃ c1 ∈ cards, ∃ c2 ∈ cards, c1.suit ≠ c2.suit) :
    (evaluate_hand cards).map Prod.fst = some "Straight" ∧
    (evaluate_hand cards).map Prod.fst ≠ some "High Card" ∧
    (evaluate_hand cards).map Prod.fst ≠ some "Straight Flush" := by
  have hperm_idx : (cards.map rankIndex).Perm [0, 1, 2, 3, 12] := by
    have h : (sortedIndices cards).Perm (cards.map rankIndex) :=
      List.perm_insertionSort _ _
    rw [hsort] at h
    exact h.symm
  have hlen : cards.length = 5 := by simpa using hperm_idx.length_eq
  have hne : cards ≠ [] := by
    intro h0; rw [h0] at hlen; simp at hlen
  have hnd_idx : (cards.map rankIndex).Nodup := hperm_idx.nodup_iff.mpr (by decide)
  have hnd_rank : (cards.map (·.rank)).Nodup := nodup_rank_of_nodup_rankIndex hnd_idx
  have hstr : is_straight cards = true := is_straight_of_sortedIndices_wheel hsort
  have hfl : is_flush cards = false := by
    unfold is_flush
    obtain ⟨c1, h1, c2, h2, hcc⟩ := hsuits
    rw [beq_eq_false_iff_ne]
    exact dedup_length_ne_one (List.mem_map_of_mem _ h1) (List.mem_map_of_mem _ h2) hcc
  have h := evaluate_hand_of_straight cards hne hnd_rank hstr
  rw [hfl] at h
  have hif : (if (false = true) then "Straight Flush" else "Straight") = "Straight" := rfl
  rw [hif] at h
  refine ⟨h, ?_, ?_⟩ <;> rw [h] <;> decide

/-- Witness for C2: the wheel A-2-3-4-5 in mixed suits and mixed input
order. -/
theorem claim_C2_witness :
    (evaluate_hand [⟨"3", "Clubs"⟩, ⟨"A", "Spades"⟩, ⟨"5", "Spades"⟩,
        ⟨"2", "Hearts"⟩, ⟨"4", "Diamonds"⟩]).map Prod.fst = some "Straight" ∧
    (evaluate_hand [⟨"3", "Clubs"⟩, ⟨"A", "Spades"⟩, ⟨"5", "Spades"⟩,
        ⟨"2", "Hearts"⟩, ⟨"4", "Diamonds"⟩]).map Prod.fst ≠ some "High Card" ∧
    (evaluate_hand [⟨"3", "Clubs"⟩, ⟨"A", "Spades"⟩, ⟨"5", "Spades"⟩,
        ⟨"2", "Hearts"⟩, ⟨"4", "Diamonds"⟩]).map Prod.fst ≠ some "Straight Flush" :=
  claim_C2 _ (by decide) (by decide)

/-! ## The game-state abstraction (`class PokerGameState`) -/

/-- `PokerGameState.__init__(hand, community_cards, pot, is_terminal=False,
current_bet=0)`. -/
structure PokerGameState where
  hand : List Card
  community_cards : List Card
  pot : Int
  current_bet : Int
  is_terminal_state : Bool
deriving DecidableEq, Repr

/-- `PokerGameState.legal_moves`.  The fold successor comes first and is
flagged terminal with the pot unchanged.  When fewer than 5 community
cards are out, the call successor and the three raise successors
(`[10, 20, 50]`) all extend the community cards by the same freshly drawn
`new_cards` (`[Deck().draw_card() for _ in range(5 - len)]`, abstracted
by the oracle `fresh` supplying the randomly drawn cards in order) and
add `current_bet` (plus the raise amount) to the pot.  Otherwise a single
terminal call successor follows the fold.  Successors leave
`current_bet` at the constructor default 0 and the terminal flag at the
constructor default `False` unless passed `True`, exactly as in the
source. -/
def legal_moves (s : PokerGameState) (fresh : Nat → Card) : List PokerGameState :=
  let foldMove : PokerGameState :=
    { hand := s.hand, community_cards := s.community_cards, pot := s.pot,
      current_bet := 0, is_terminal_state := true }
  if s.community_cards.length < 5 then
    let new_cards := (List.range (5 - s.community_cards.length)).map fresh
    [foldMove,
     { hand := s.hand, community_cards := s.community_cards ++ new_cards,
       pot := s.pot + s.current_bet, current_bet := 0, is_terminal_state := false },
     { hand := s.hand, community_cards := s.community_cards ++ new_cards,
       pot := s.pot + s.current_bet + 10, current_bet := 0, is_terminal_state := false },
     { hand := s.hand, community_cards := s.community_cards ++ new_cards,
       pot := s.pot + s.current_bet + 20, current_bet := 0, is_terminal_state := false },
     { hand := s.hand, community_cards := s.community_cards ++ new_cards,
       pot := s.pot + s.current_bet + 50, current_bet := 0, is_terminal_state := false }]
  else
    [foldMove,
     { hand := s.hand, community_cards := s.community_cards,
       pot := s.pot + s.current_bet, current_bet := 0, is_terminal_state := true }]

/-- `PokerGameState.is_terminal`: explicitly flagged terminal, or 5
community cards are out. -/
def is_terminal (s : PokerGameState) : Bool :=
  s.is_terminal_state || s.community_cards.length == 5

/-- The `winning_hands` list of `PokerGameState.game_result`. -/
def winning_hands : List String :=
  ["Straight Flush", "Four of a Kind", "Full House", "Flush"]

/-- `PokerGameState.game_result`: evaluate the combined hole+community
hand; +1 when the category is in `winning_hands`, else −1.  `none` where
`PokerHand(...)` raises (empty combined hand). -/
def game_result (s : PokerGameState) : Option Int :=
  (evaluate_hand (s.hand ++ s.community_cards)).map
    (fun r => if r.1 ∈ winning_hands then 1 else -1)

/-- `random.choice(possible_moves)`: the random index is abstracted by
the oracle value `i`, reduced mod the length so that any oracle denotes a
valid choice; the default is never used on the nonempty lists produced by
`legal_moves`. -/
def pickFrom (l : List PokerGameState) (i : Nat) (dflt : PokerGameState) :
    PokerGameState :=
  l.getD (i % l.length) dflt

/-- `MCTS.simulate_random_game`: loop `while not current_state.is_terminal()`
picking a random legal move, then `game_result()`.  The source loop is
unbounded; the model adds fuel and returns `none` on exhaustion — the C10
theorem shows fuel 2 already suffices from every state, i.e. the loop
makes at most one transition. -/
def simulate_random_game (freshs : Nat → Nat → Card) (pick : Nat → Nat) :
    Nat → PokerGameState → Option Int
  | 0, _ => none
  | fuel + 1, s =>
    if is_terminal s then game_result s
    else
      simulate_random_game (fun k => freshs (k + 1)) (fun k => pick (k + 1)) fuel
        (pickFrom (legal_moves s (freshs 0)) (pick 0) s)

lemma legal_moves_ne_nil (s : PokerGameState) (fresh : Nat → Card) :
    legal_moves s fresh ≠ [] := by
  unfold legal_moves
  split <;> simp

lemma legal_moves_all_terminal (s : PokerGameState) (fresh : Nat → Card) :
    ∀ mv ∈ legal_moves s fresh, is_terminal mv = true := by
  intro mv hmv
  unfold legal_moves at hmv
  by_cases h5 : s.community_cards.length < 5
  · rw [if_pos h5] at hmv
    simp only [List.mem_cons, List.not_mem_nil, or_false] at hmv
    have hlen : (s.community_cards ++
        (List.range (5 - s.community_cards.length)).map fresh).length = 5 := by
      simp
      omega
    rcases hmv with h | h | h | h | h <;> subst h <;>
      simp [is_terminal, hlen]
  · rw [if_neg h5] at hmv
    simp only [List.mem_cons, List.not_mem_nil, or_false] at hmv
    rcases hmv with h | h <;> subst h <;> simp [is_terminal]

lemma pickFrom_mem (l : List PokerGameState) (i : Nat) (d : PokerGameState)
    (h : l ≠ []) : pickFrom l i d ∈ l := by
  unfold pickFrom
  have hlt : i % l.length < l.length := Nat.mod_lt _ (List.length_pos.mpr h)
  rw [List.getD_eq_getElem _ _ hlt]
  exact List.getElem_mem hlt

lemma simulate_terminal (freshs : Nat → Nat → Card) (pick : Nat → Nat)
    (fuel : Nat) (s : PokerGameState) (h : is_terminal s = true) :
    simulate_random_game freshs pick (fuel + 1) s = game_result s := by
  simp [simulate_random_game, h]

lemma simulate_step (freshs : Nat → Nat → Card) (pick : Nat → Nat)
    (fuel : Nat) (s : PokerGameState) (h : is_terminal s = false) :
    simulate_random_game freshs pick (fuel + 1) s
      = simulate_random_game (fun k => freshs (k + 1)) (fun k => pick (k + 1)) fuel
          (pickFrom (legal_moves s (freshs 0)) (pick 0) s) := by
  simp [simulate_random_game, h]

/-- **C3.** For every state with fewer than 5 community cards,
`legal_moves` returns exactly five successors in order: the terminal
fold successor first (pot unchanged), then the call successor with pot
`pot + current_bet` and community cards extended to exactly 5, then one
raise successor per amount 10, 20, 50 with pot
`pot + current_bet + amount`, all four sharing the same 5-card community
set; and `legal_moves` never returns an empty list for any state. -/
theorem claim_C3 (s : PokerGameState) (fresh : Nat → Card)
    (hlt : s.community_cards.length < 5) :
    (∃ new_cards : List Card,
      (s.community_cards ++ new_cards).length = 5 ∧
      legal_moves s fresh =
        [{ hand := s.hand, community_cards := s.community_cards, pot := s.pot,
           current_bet := 0, is_terminal_state := true },
         { hand := s.hand, community_cards := s.community_cards ++ new_cards,
           pot := s.pot + s.current_bet, current_bet := 0, is_terminal_state := false },
         { hand := s.hand, community_cards := s.community_cards ++ new_cards,
           pot := s.pot + s.current_bet + 10, current_bet := 0, is_terminal_state := false },
         { hand := s.hand, community_cards := s.community_cards ++ new_cards,
           pot := s.pot + s.current_bet + 20, current_bet := 0, is_terminal_state := false },
         { hand := s.hand, community_cards := s.community_cards ++ new_cards,
           pot := s.pot + s.current_bet + 50, current_bet := 0, is_terminal_state := false }]) ∧
    ∀ (s2 : PokerGameState) (fresh2 : Nat → Card), legal_moves s2 fresh2 ≠ [] := by
  refine ⟨⟨(List.range (5 - s.community_cards.length)).map fresh, ?_, ?_⟩,
    legal_moves_ne_nil⟩
  · simp
    omega
  · unfold legal_moves
    rw [if_pos hlt]

/-- Witness for C3 at a concrete pre-flop state. -/
theorem claim_C3_witness :
    (∃ new_cards : List Card,
      (([] : List Card) ++ new_cards).length = 5 ∧
      legal_moves
          (⟨[⟨"A", "Spades"⟩, ⟨"K", "Spades"⟩], [], 20, 5, false⟩ : PokerGameState)
          (fun _ => ⟨"2", "Clubs"⟩) =
        [⟨[⟨"A", "Spades"⟩, ⟨"K", "Spades"⟩], [], 20, 0, true⟩,
         ⟨[⟨"A", "Spades"⟩, ⟨"K", "Spades"⟩], [] ++ new_cards, 20 + 5, 0, false⟩,
         ⟨[⟨"A", "Spades"⟩, ⟨"K", "Spades"⟩], [] ++ new_cards, 20 + 5 + 10, 0, false⟩,
         ⟨[⟨"A", "Spades"⟩, ⟨"K", "Spades"⟩], [] ++ new_cards, 20 + 5 + 20, 0, false⟩,
         ⟨[⟨"A", "Spades"⟩, ⟨"K", "Spades"⟩], [] ++ new_cards, 20 + 5 + 50, 0, false⟩]) ∧
    ∀ (s2 : PokerGameState) (fresh2 : Nat → Card), legal_moves s2 fresh2 ≠ [] :=
  claim_C3 ⟨[⟨"A", "Spades"⟩, ⟨"K", "Spades"⟩], [], 20, 5, false⟩
    (fun _ => ⟨"2", "Clubs"⟩) (by decide)

/-- **C4.** `game_result` returns +1 exactly when the evaluated
hole+community hand's category lies in the winning set
{Straight Flush, Four of a Kind, Full House, Flush}, and −1 otherwise;
no other outcome value occurs.  (Stated for states whose combined hand
is nonempty with valid ranks — on other states the source raises rather
than returning a value.) -/
theorem claim_C4 (s : PokerGameState)
    (hne : s.hand ++ s.community_cards ≠ [])
    (hvalid : ∀ c ∈ s.hand ++ s.community_cards, c.rank ∈ Card.ranks) :
    (game_result s = some 1 ∨ game_result s = some (-1)) ∧
    (game_result s = some 1 ↔
      ∃ p, ∃ cat ∈ winning_hands,
        evaluate_hand (s.hand ++ s.community_cards) = some (cat, p)) := by
  obtain ⟨⟨cat, p⟩, hr⟩ := evaluate_hand_ne_none hne
  have hgr : game_result s = some (if cat ∈ winning_hands then 1 else -1) := by
    unfold game_result
    rw [hr]
    rfl
  by_cases hc : cat ∈ winning_hands
  · rw [hgr, if_pos hc]
    refine ⟨Or.inl rfl, ?_, ?_⟩
    · intro _
      exact ⟨p, cat, hc, hr⟩
    · intro _
      rfl
  · rw [hgr, if_neg hc]
    refine ⟨Or.inr rfl, ?_, ?_⟩
    · intro h1
      exact absurd h1 (by decide)
    · rintro ⟨p2, cat2, hc2, hr2⟩
      rw [hr] at hr2
      injection hr2 with hr3
      injection hr3 with hr4 hr5
      exact absurd (hr4 ▸ hc2) hc

/-- Witness for C4: the royal-flush scenario (hole A♠ K♠, community
Q♠ J♠ 10♠) of the spec, where the result is +1. -/
theorem claim_C4_witness :
    (game_result (⟨[⟨"A", "Spades"⟩, ⟨"K", "Spades"⟩],
        [⟨"Q", "Spades"⟩, ⟨"J", "Spades"⟩, ⟨"10", "Spades"⟩], 0, 0, true⟩
          : PokerGameState) = some 1 ∨
     game_result (⟨[⟨"A", "Spades"⟩, ⟨"K", "Spades"⟩],
        [⟨"Q", "Spades"⟩, ⟨"J", "Spades"⟩, ⟨"10", "Spades"⟩], 0, 0, true⟩
          : PokerGameState) = some (-1)) ∧
    (game_result (⟨[⟨"A", "Spades"⟩, ⟨"K", "Spades"⟩],
        [⟨"Q", "Spades"⟩, ⟨"J", "Spades"⟩, ⟨"10", "Spades"⟩], 0, 0, true⟩
          : PokerGameState) = some 1 ↔
      ∃ p, ∃ cat ∈ winning_hands,
        evaluate_hand ([⟨"A", "Spades"⟩, ⟨"K", "Spades"⟩] ++
          [⟨"Q", "Spades"⟩, ⟨"J", "Spades"⟩, ⟨"10", "Spades"⟩]) = some (cat, p)) :=
  claim_C4 ⟨[⟨"A", "Spades"⟩, ⟨"K", "Spades"⟩],
      [⟨"Q", "Spades"⟩, ⟨"J", "Spades"⟩, ⟨"10", "Spades"⟩], 0, 0, true⟩
    (by decide) (by decide)

/-- **C10.** Every successor returned by `legal_moves` is terminal: the
fold successor is flagged terminal, and every call or raise successor
either carries exactly 5 community cards or is flagged terminal.
Consequently `simulate_random_game` makes at most one transition from
any state: fuel 2 computes the same result as any larger fuel, so the
source's unbounded rollout loop always terminates. -/
theorem claim_C10 :
    (∀ (s : PokerGameState) (fresh : Nat → Card),
      ∀ mv ∈ legal_moves s fresh, is_terminal mv = true) ∧
    (∀ (s : PokerGameState) (freshs : Nat → Nat → Card) (pick : Nat → Nat)
      (extra : Nat),
      simulate_random_game freshs pick (2 + extra) s
        = simulate_random_game freshs pick 2 s) := by
  refine ⟨legal_moves_all_terminal, ?_⟩
  intro s freshs pick extra
  cases hterm : is_terminal s with
  | true =>
    rw [show 2 + extra = (1 + extra) + 1 by omega,
      simulate_terminal _ _ _ _ hterm,
      show (2 : Nat) = 1 + 1 from rfl,
      simulate_terminal _ _ _ _ hterm]
  | false =>
    have hnext : is_terminal
        (pickFrom (legal_moves s (freshs 0)) (pick 0) s) = true :=
      legal_moves_all_terminal s (freshs 0) _
        (pickFrom_mem _ _ _ (legal_moves_ne_nil s (freshs 0)))
    rw [show 2 + extra = (extra + 1) + 1 by omega,
      simulate_step _ _ _ _ hterm,
      show (2 : Nat) = 1 + 1 from rfl,
      simulate_step _ _ _ _ hterm,
      simulate_terminal _ _ _ _ hnext,
      simulate_terminal _ _ _ _ hnext]

/-- Witness for C10: the fold successor of a concrete state is terminal,
and a concrete rollout is fuel-independent. -/
theorem claim_C10_witness :
    is_terminal (⟨[⟨"A", "Spades"⟩], [], 0, 0, true⟩ : PokerGameState) = true ∧
    simulate_random_game (fun _ _ => ⟨"2", "Clubs"⟩) (fun _ => 0) (2 + 7)
        ⟨[⟨"A", "Spades"⟩], [], 0, 0, false⟩
      = simulate_random_game (fun _ _ => ⟨"2", "Clubs"⟩) (fun _ => 0) 2
        ⟨[⟨"A", "Spades"⟩], [], 0, 0, false⟩ :=
  ⟨claim_C10.1 ⟨[⟨"A", "Spades"⟩], [], 0, 0, false⟩ (fun _ => ⟨"2", "Clubs"⟩)
      _ (by decide),
   claim_C10.2 _ _ _ 7⟩

/-! ## The search tree and MCTS engine (`class Node`, `class MCTS`) -/

/-- The visit/win statistics of a search-tree `Node`
(`self.wins`, `self.visits`). -/
structure NodeStat where
  wins : Int
  visits : Nat
deriving DecidableEq, Repr

/-- The score maximized by `Node.best_child`: pure exploitation
`x.wins / x.visits` when the node has no parent (the root), else
`x.wins / x.visits + 1.41 * sqrt(log(self.parent.visits) / x.visits)`.
Note the source reads `self.parent.visits`: the visit count of the
*parent of the node whose children are compared* — from the scored
child's point of view, its grandparent — not the visit count of the node
itself.  Floats of the source are modelled as real numbers. -/
noncomputable def nodeScore (parentVisits : Option Nat) (x : NodeStat) : ℝ :=
  match parentVisits with
  | none => (x.wins : ℝ) / (x.visits : ℝ)
  | some pv => (x.wins : ℝ) / (x.visits : ℝ)
      + 1.41 * Real.sqrt (Real.log (pv : ℝ) / (x.visits : ℝ))

/-- Python `max(iterable, key=f)` keeps the first element attaining the
maximal key; `selectIdxAux f b bi i cs` scans `cs` (positions from `i`)
with current best `b` at position `bi`. -/
noncomputable def selectIdxAux {α : Type} (f : α → ℝ) :
    α → Nat → Nat → List α → Nat
  | _, bi, _, [] => bi
  | b, bi, i, c :: cs =>
    if f b < f c then selectIdxAux f c i (i + 1) cs
    else selectIdxAux f b bi (i + 1) cs

/-- Index of the first maximal element under `f` (0 on the empty list,
where Python's `max` raises `ValueError`). -/
noncomputable def selectIdx {α : Type} (f : α → ℝ) : List α → Nat
  | [] => 0
  | c :: cs => selectIdxAux f c 0 1 cs

/-- `Node.best_child`, as a function of the data it reads: the visit
count of the node's parent (`none` when `self.parent is None`) and the
children's statistics.  Returns the first child attaining the maximal
score; `none` on an empty children list (where the source raises). -/
noncomputable def best_child (parentVisits : Option Nat)
    (children : List NodeStat) : Option NodeStat :=
  children[selectIdx (nodeScore parentVisits) children]?

/-- The UCB1 expression in the claim's (and standard UCB1's) reading:
`ln(n.visits)` where `n` is the node whose children are being compared.
This definition follows the claim's words, for comparison with
`nodeScore`, which embeds the source and uses `ln(n.parent.visits)`. -/
noncomputable def claimedUCB1 (selfVisits : Nat) (x : NodeStat) : ℝ :=
  (x.wins : ℝ) / (x.visits : ℝ)
    + 1.41 * Real.sqrt (Real.log (selfVisits : ℝ) / (x.visits : ℝ))

/-- The search tree of `MCTS.choose_move`: a node owns its state, its
win/visit statistics and its children (the parent pointer of the source
is represented by passing the parent's visit count down the recursion
in `mctsIterate`). -/
inductive MTree (S : Type) where
  | mk (state : S) (wins : Int) (visits : Nat) (children : List (MTree S))

namespace MTree

variable {S : Type}

def state : MTree S → S
  | mk st _ _ _ => st

def wins : MTree S → Int
  | mk _ w _ _ => w

def visits : MTree S → Nat
  | mk _ _ v _ => v

def children : MTree S → List (MTree S)
  | mk _ _ _ ch => ch

def stat (t : MTree S) : NodeStat := ⟨t.wins, t.visits⟩

end MTree

/-- One iteration of the loop body of `MCTS.choose_move`
(selection → expansion → simulation → backpropagation), returning the
updated subtree and the simulated outcome (which the unwinding recursion
adds to every node on the selection path — the backpropagation walk).

* `legalCount s` abstracts `len(s.legal_moves())` (used by
  `fully_expanded`); `isTerm` abstracts `is_terminal`.
* `newState` is the state chosen by `random.choice` at the expansion
  step; `outcome` is the result of `simulate_random_game` — both are
  oracle values for the source's randomness.
* While a node is fully expanded and non-terminal, selection descends
  into `best_child`; the score uses `pv`, the visit count of the
  current node's parent, exactly as `self.parent.visits` in the source.
* A node that is not fully expanded expands one child (`add_child`
  creates it with zero statistics and backpropagation immediately
  updates it to one visit and `outcome` wins).
* On a fully-expanded terminal node only simulation/backpropagation run.
* If selection hits a node whose children list is empty (only possible
  when `legalCount` of its state is 0), the source raises from `max()`
  on an empty sequence; the model returns the tree unchanged there. -/
noncomputable def mctsIterate {S : Type} (legalCount : S → Nat) (isTerm : S → Bool)
    (newState : S) (outcome : Int) : Option Nat → MTree S → MTree S × Int
  | pv, MTree.mk st w v ch =>
    if ch.length = legalCount st ∧ isTerm st = false then
      match hsel : ch[selectIdx (nodeScore pv) (ch.map MTree.stat)]? with
      | some c =>
        let r := mctsIterate legalCount isTerm newState outcome (some v) c
        (MTree.mk st (w + r.2) (v + 1)
          (ch.set (selectIdx (nodeScore pv) (ch.map MTree.stat)) r.1), r.2)
      | none => (MTree.mk st w v ch, outcome)
    else if ch.length = legalCount st then
      (MTree.mk st (w + outcome) (v + 1) ch, outcome)
    else
      (MTree.mk st (w + outcome) (v + 1) (ch ++ [MTree.mk newState outcome 1 []]),
        outcome)
termination_by pv t => sizeOf t
decreasing_by
  have hmem := List.getElem?_mem hsel
  have hlt := List.sizeOf_lt_of_mem hmem
  simp only [MTree.mk.sizeOf_spec]
  omega

/-- The `for _ in range(1000)` loop of `MCTS.choose_move`, generalized to
`n` iterations: the oracle streams supply one expansion state and one
rollout outcome per iteration.  The root call passes `none` as parent
visit count (`self.parent is None`). -/
noncomputable def mctsRun {S : Type} (legalCount : S → Nat) (isTerm : S → Bool)
    (newStates : Nat → S) (outcomes : Nat → Int) : Nat → MTree S → MTree S
  | 0, t => t
  | n + 1, t =>
    mctsRun legalCount isTerm (fun k => newStates (k + 1)) (fun k => outcomes (k + 1)) n
      (mctsIterate legalCount isTerm (newStates 0) (outcomes 0) none t).1

/-- `MCTS.choose_move`: run 1000 iterations from a fresh root holding
`state`, then return the state of the root's best child (pure
exploitation, the root having no parent). -/
noncomputable def choose_move {S : Type} (legalCount : S → Nat) (isTerm : S → Bool)
    (newStates : Nat → S) (outcomes : Nat → Int) (state : S) : Option S :=
  let root := mctsRun legalCount isTerm newStates outcomes 1000 (MTree.mk state 0 0 [])
  (root.children[selectIdx (nodeScore none) (root.children.map MTree.stat)]?).map
    MTree.state

/-- Every node of this subtree has at least one visit. -/
inductive AllVisited {S : Type} : MTree S → Prop where
  | mk : ∀ (st : S) (w : Int) (v : Nat) (ch : List (MTree S)),
      1 ≤ v → (∀ c ∈ ch, AllVisited c) → AllVisited (MTree.mk st w v ch)

lemma AllVisited.one_le_visits {S : Type} {t : MTree S} (h : AllVisited t) :
    1 ≤ t.visits := by
  cases h with
  | mk st w v ch hv hch => exact hv

lemma AllVisited.children_mem {S : Type} {t : MTree S} (h : AllVisited t) :
    ∀ c ∈ t.children, AllVisited c := by
  cases h with
  | mk st w v ch hv hch => exact hch

/-- One MCTS iteration preserves `AllVisited` on a subtree (the node on
the selection path is itself visited by backpropagation, the expanded
child is created and immediately visited, and untouched children keep
their statistics). -/
lemma allVisited_mctsIterate {S : Type} (lc : S → Nat) (it : S → Bool)
    (ns : S) (oc : Int) :
    ∀ (pv : Option Nat) (t : MTree S), AllVisited t →
      AllVisited (mctsIterate lc it ns oc pv t).1 := by
  suffices H : ∀ (n : Nat) (pv : Option Nat) (t : MTree S), sizeOf t ≤ n →
      AllVisited t → AllVisited (mctsIterate lc it ns oc pv t).1 by
    intro pv t hav
    exact H (sizeOf t) pv t le_rfl hav
  intro n
  induction n with
  | zero =>
    intro pv t hsz hav
    exfalso
    cases t with
    | mk st w v ch =>
      simp only [MTree.mk.sizeOf_spec] at hsz
      omega
  | succ n ih =>
    intro pv t hsz hav
    cases t with
    | mk st w v ch =>
    rw [mctsIterate]
    split
    · split
      · rename_i c heq
        refine AllVisited.mk _ _ _ _ (by omega) ?_
        intro c2 hc2
        rcases List.mem_or_eq_of_mem_set hc2 with hmem | heq2
        · exact hav.children_mem c2 hmem
        · have hcmem : c ∈ ch := List.getElem?_mem heq
          have hcsz : sizeOf c < sizeOf ch := List.sizeOf_lt_of_mem hcmem
          have hsz2 : sizeOf c ≤ n := by
            simp only [MTree.mk.sizeOf_spec] at hsz
            omega
          have hcav : AllVisited c := hav.children_mem c hcmem
          rw [heq2]
          exact ih (some v) c hsz2 hcav
      · exact hav
    · split
      · refine AllVisited.mk _ _ _ _ (by omega) ?_
        intro c2 hc2
        exact hav.children_mem c2 hc2
      · refine AllVisited.mk _ _ _ _ (by omega) ?_
        intro c2 hc2
        simp only [List.mem_append, List.mem_singleton] at hc2
        rcases hc2 with h | h
        · exact hav.children_mem c2 h
        · rw [h]
          refine AllVisited.mk _ _ _ _ (by omega) ?_
          intro c3 hc3
          exact absurd hc3 (List.not_mem_nil _)

/-- One MCTS iteration preserves the invariant "every child subtree of
this node is fully visited" (the root's own visit count is
unconstrained). -/
lemma treeInv_mctsIterate {S : Type} (lc : S → Nat) (it : S → Bool)
    (ns : S) (oc : Int) (pv : Option Nat) (t : MTree S)
    (hinv : ∀ c ∈ t.children, AllVisited c) :
    ∀ c ∈ (mctsIterate lc it ns oc pv t).1.children, AllVisited c := by
  cases t with
  | mk st w v ch =>
  rw [mctsIterate]
  split
  · split
    · rename_i c heq
      intro c2 hc2
      simp only [MTree.children] at hc2
      rcases List.mem_or_eq_of_mem_set hc2 with hmem | heq2
      · exact hinv c2 hmem
      · have hcmem : c ∈ ch := List.getElem?_mem heq
        have hcav : AllVisited c := hinv c hcmem
        rw [heq2]
        exact allVisited_mctsIterate lc it ns oc (some v) c hcav
    · exact hinv
  · split
    · intro c2 hc2
      exact hinv c2 hc2
    · intro c2 hc2
      simp only [MTree.children, List.mem_append, List.mem_singleton] at hc2
      rcases hc2 with h | h
      · exact hinv c2 h
      · rw [h]
        refine AllVisited.mk _ _ _ _ (by omega) ?_
        intro c3 hc3
        exact absurd hc3 (List.not_mem_nil _)

lemma treeInv_mctsRun {S : Type} (lc : S → Nat) (it : S → Bool) :
    ∀ (n : Nat) (nss : Nat → S) (ocs : Nat → Int) (t : MTree S),
      (∀ c ∈ t.children, AllVisited c) →
      ∀ c ∈ (mctsRun lc it nss ocs n t).children, AllVisited c := by
  intro n
  induction n with
  | zero => intro nss ocs t hinv; exact hinv
  | succ n ih =>
    intro nss ocs t hinv
    rw [mctsRun]
    exact ih _ _ _ (treeInv_mctsIterate lc it (nss 0) (ocs 0) none t hinv)

/-- **C9.** Throughout a `choose_move` run, UCB1 never divides by a zero
visit count: starting from a fresh root, after any number of iterations
every child subtree of the tree consists of nodes with at least one
visit (each child is created by expansion and visited by
backpropagation in the same iteration).  Since `best_child` — during
selection and at the final recommendation — only ever scores children
of nodes of this tree, every divisor `x.visits` occurring in `nodeScore`
is nonzero: the second conjunct makes the nonzero real divisor explicit
for the root's children, and `AllVisited` propagates it to every deeper
node. -/
theorem claim_C9 {S : Type} (legalCount : S → Nat) (isTerm : S → Bool)
    (newStates : Nat → S) (outcomes : Nat → Int) (n : Nat) (st : S) :
    ∀ c ∈ (mctsRun legalCount isTerm newStates outcomes n
        (MTree.mk st 0 0 [])).children,
      AllVisited c ∧ ((c.stat.visits : ℝ) ≠ 0) := by
  intro c hc
  have hav : AllVisited c := by
    refine treeInv_mctsRun legalCount isTerm n newStates outcomes
      (MTree.mk st 0 0 []) ?_ c hc
    intro c2 hc2
    exact absurd hc2 (List.not_mem_nil _)
  refine ⟨hav, ?_⟩
  have h1 : 1 ≤ c.visits := hav.one_le_visits
  have h2 : c.stat.visits = c.visits := rfl
  rw [h2]
  exact_mod_cast (by omega : c.visits ≠ 0)

/-- Witness for C9: one iteration on a fresh root over a trivial state
space expands one child, which carries one visit. -/
theorem claim_C9_witness :
    AllVisited (MTree.mk (7 : Nat) 1 1 []) ∧
    (((MTree.mk (7 : Nat) 1 1 []).stat.visits : ℝ) ≠ 0) := by
  have hmem : MTree.mk (7 : Nat) 1 1 [] ∈
      (mctsRun (fun _ => 1) (fun _ => false) (fun _ => 7) (fun _ => 1) 1
        (MTree.mk (0 : Nat) 0 0 [])).children := by
    rw [mctsRun, mctsRun, mctsIterate]
    simp [MTree.children]
  exact claim_C9 (fun _ => 1) (fun _ => false) (fun _ => 7) (fun _ => 1) 1 0
    (MTree.mk (7 : Nat) 1 1 []) hmem

lemma log_twenty_gt : (2.7725887212 : ℝ) < Real.log 20 := by
  have h16 : Real.log 16 ≤ Real.log 20 := Real.log_le_log (by norm_num) (by norm_num)
  have h2 : Real.log 16 = 4 * Real.log 2 := by
    rw [show (16 : ℝ) = 2 ^ 4 by norm_num, Real.log_pow]
    norm_num
  have h3 := Real.log_two_gt_d9
  nlinarith

lemma log_six_lt : Real.log 6 < 2 := by
  rw [Real.log_lt_iff_lt_exp (by norm_num)]
  have he : Real.exp 2 = Real.exp 1 * Real.exp 1 := by
    rw [← Real.exp_add]; norm_num
  have h1 := Real.exp_one_gt_d9
  rw [he]
  nlinarith

/-- **C5 (code bug).**  At a node `n` with `n.parent.visits = 20`,
`n.visits = 6` and children `A = ⟨wins -1, visits 1⟩`,
`B = ⟨wins 0, visits 4⟩` (a configuration satisfiable in a real search:
20 ≥ 6 ≥ 1 + 4 + 1), the source's `best_child` — whose exploration term
uses `ln(self.parent.visits) = ln 20` — returns `A`; but under the UCB1
expression of the claim, `ln(n.visits) = ln 6` where `n` is the node
whose children are compared, the unique maximizer is `B`
(`claimedUCB1 6 A < claimedUCB1 6 B`), so the code diverges from the
UCB1 formula its own docstring claims to implement.  The root branch
(no parent, pure exploitation `wins/visits`) agrees with the claim and
returns `B`. -/
theorem claim_C5 :
    best_child (some 20) [⟨-1, 1⟩, ⟨0, 4⟩] = some ⟨-1, 1⟩ ∧
    claimedUCB1 6 ⟨-1, 1⟩ < claimedUCB1 6 ⟨0, 4⟩ ∧
    best_child none [⟨-1, 1⟩, ⟨0, 4⟩] = some ⟨0, 4⟩ := by
  have hL : (2.7725887212 : ℝ) < Real.log 20 := log_twenty_gt
  have hL0 : (0 : ℝ) ≤ Real.log 20 := by nlinarith
  have h6lt : Real.log 6 < 2 := log_six_lt
  have h60 : (0 : ℝ) ≤ Real.log 6 := Real.log_nonneg (by norm_num)
  have hsqrt4 : Real.sqrt 4 = 2 := by
    rw [show (4 : ℝ) = 2 ^ 2 by norm_num, Real.sqrt_sq (by norm_num : (0 : ℝ) ≤ 2)]
  have hcodeA : nodeScore (some 20) ⟨-1, 1⟩
      = -1 + 1.41 * Real.sqrt (Real.log 20) := by
    simp only [nodeScore]
    norm_num
  have hcodeB : nodeScore (some 20) ⟨0, 4⟩
      = 1.41 * (Real.sqrt (Real.log 20) / 2) := by
    simp only [nodeScore]
    norm_num
    rw [hsqrt4]
  have hBA : nodeScore (some 20) ⟨0, 4⟩ < nodeScore (some 20) ⟨-1, 1⟩ := by
    rw [hcodeA, hcodeB]
    have hs := Real.mul_self_sqrt hL0
    have hnn := Real.sqrt_nonneg (Real.log 20)
    have h1 : (1 : ℝ) < 0.705 * Real.sqrt (Real.log 20) := by nlinarith
    linarith
  have hclaimA : claimedUCB1 6 ⟨-1, 1⟩ = -1 + 1.41 * Real.sqrt (Real.log 6) := by
    simp only [claimedUCB1]
    norm_num
  have hclaimB : claimedUCB1 6 ⟨0, 4⟩ = 1.41 * (Real.sqrt (Real.log 6) / 2) := by
    simp only [claimedUCB1]
    norm_num
    rw [hsqrt4]
  refine ⟨?_, ?_, ?_⟩
  · simp only [best_child, selectIdx, selectIdxAux]
    rw [if_neg (not_lt.mpr hBA.le)]
    rfl
  · rw [hclaimA, hclaimB]
    have hs := Real.mul_self_sqrt h60
    have hnn := Real.sqrt_nonneg (Real.log 6)
    have h1 : 0.705 * Real.sqrt (Real.log 6) < 1 := by nlinarith
    linarith
  · have hroot : nodeScore none (⟨-1, 1⟩ : NodeStat)
        < nodeScore none (⟨0, 4⟩ : NodeStat) := by
      simp only [nodeScore]
      norm_num
    simp only [best_child, selectIdx, selectIdxAux]
    rw [if_pos hroot]
    rfl
